import Mathlib

/-!
Verification of the IPv6 prefix-aggregation core (Patricia-style binary trie)
shared by `v1.py`, `v2.py`, `v3.py`, `v4.py`, `v5.py` and `calcilo_metricas.py`.

The data model and every operation below are shallow embeddings of the Python
source: a `Network` is an `ipaddress.ip_network` value (128-bit address plus
prefix length, host bits cleared by `strict=False`); a `Trie` is the
`PatriciaTrie` whose nodes hold a children map (binary, so two optional
children), an optional stored network and an `is_aggregated` flag.
`Trie.nil` stands for an absent entry of the children dictionary.
-/

/-- A parsed network value: `ipaddress.ip_network` restricted to the fields the
core reads (`network_address` as a 128-bit integer, `prefixlen`). -/
structure Network where
  address : Nat
  prefixLen : Nat
deriving DecidableEq

/-- Well-formedness guaranteed by `ipaddress.ip_network(x, strict=False)` for an
IPv6 input: prefix length at most 128, address within 128 bits, host bits
(beyond the prefix) cleared. -/
def Network.wf (n : Network) : Prop :=
  n.prefixLen ≤ 128 ∧ n.address < 2 ^ 128 ∧ n.address % 2 ^ (128 - n.prefixLen) = 0

instance (n : Network) : Decidable n.wf := by
  unfold Network.wf
  infer_instance

/-- The first `k` characters of `bin(int(address))[2:].zfill(128)`, i.e. the
`k` most-significant bits of the 128-bit address, as booleans. -/
def addrBits (a : Nat) (k : Nat) : List Bool :=
  (List.range k).map fun i => a.testBit (127 - i)

/-- `bin(int(n.network_address))[2:].zfill(128)[:n.prefixlen]`, the bit path of
a network in the trie. -/
def Network.bits (n : Network) : List Bool :=
  addrBits n.address n.prefixLen

/-- `PatriciaTrieNode`: children dictionary (binary alphabet, so two slots,
`nil` meaning the key is absent), the stored network, the aggregation flag.
`nil` itself represents a missing node. -/
inductive Trie where
  | nil : Trie
  | node (child0 child1 : Trie) (network : Option Network) (isAggregated : Bool) : Trie
deriving DecidableEq

/-- The `network` attribute of a node (`none` on a missing node). -/
def Trie.net : Trie → Option Network
  | .nil => none
  | .node _ _ n _ => n

/-- A fresh `PatriciaTrieNode()`: empty children, no network, flag `False`. -/
def emptyTrie : Trie :=
  .node .nil .nil none false

/-- The loop body of `PatriciaTrie.insert`: walk the prefix bits, creating
missing children, and set the terminal node's network. -/
def insertBits : List Bool → Trie → Network → Trie
  | [], .nil, n => .node .nil .nil (some n) false
  | [], .node c0 c1 _ agg, n => .node c0 c1 (some n) agg
  | b :: bs, .nil, n =>
    if b then .node .nil (insertBits bs .nil n) none false
    else .node (insertBits bs .nil n) .nil none false
  | b :: bs, .node c0 c1 net agg, n =>
    if b then .node c0 (insertBits bs c1 n) net agg
    else .node (insertBits bs c0 n) c1 net agg

/-- `PatriciaTrie.insert(network)` from `v1.py` lines 21-31 (identical in every
other file). -/
def Trie.insert (t : Trie) (n : Network) : Trie :=
  insertBits n.bits t n

/-- Inserting a list of networks into a fresh trie, as the loop
`for network in df['network'].drop_duplicates(): trie.insert(network)` does. -/
def buildTrie (l : List Network) : Trie :=
  l.foldl Trie.insert emptyTrie

/-- Candidate update performed after descending into a child:
`if node.network and node.network.prefixlen < network.prefixlen:
supernet_candidate = node.network`. -/
def updCand (childNet : Option Network) (qlen : Nat) (cand : Option Network) :
    Option Network :=
  match childNet with
  | some m => if m.prefixLen < qlen then some m else cand
  | none => cand

/-- The walk loop of `find_supernet_or_contiguous`: follow the query's bits
while children exist, tracking the supernet candidate; return the final node's
network together with the candidate.  (The Python code keeps the final node
itself but only ever reads its `network` attribute afterwards.) -/
def walkFind : List Bool → Trie → Nat → Option Network → Option Network × Option Network
  | _, .nil, _, cand => (none, cand)
  | [], .node _ _ net _, _, cand => (net, cand)
  | b :: bs, .node c0 c1 net _, qlen, cand =>
    match (if b then c1 else c0) with
    | .nil => (net, cand)
    | .node d0 d1 dnet dagg =>
      walkFind bs (.node d0 d1 dnet dagg) qlen (updCand dnet qlen cand)

/-- `PatriciaTrie.find_supernet_or_contiguous(network)` from `v1.py` lines
35-65 (identical in `v2.py`, `v3.py`, `v4.py`, `v5.py`): after the walk, if the
final node stores a network whose address is `network.address +
(1 << (128 - network.prefixlen))`, return it; otherwise return the supernet
candidate. -/
def Trie.findSupernetOrContiguous (t : Trie) (q : Network) : Option Network :=
  match walkFind (addrBits q.address 128) t q.prefixLen none with
  | (some m, cand) =>
    if m.address = q.address + 2 ^ (128 - q.prefixLen) then some m else cand
  | (none, cand) => cand

/-- `PatriciaTrie.find_supernet_or_contiguous(network)` from
`calcilo_metricas.py` lines 34-59, where the contiguity block (lines 54-57) is
commented out: the walk's supernet candidate is returned unconditionally. -/
def Trie.findSupernetOrContiguousCM (t : Trie) (q : Network) : Option Network :=
  (walkFind (addrBits q.address 128) t q.prefixLen none).2

/-- Pure path walk: follow the given bits through existing children, returning
the node reached, or `none` as soon as a child is missing. -/
def walkPath : List Bool → Trie → Option Trie
  | _, .nil => none
  | [], t => some t
  | b :: bs, .node c0 c1 _ _ => walkPath bs (if b then c1 else c0)

/-- The loop of `PatriciaTrie.mark_as_aggregated` (`v1.py` lines 71-82):
`node = node.children[bit]` with *unchecked* indexing — a missing child is a
`KeyError`, modelled as `none`; on success the terminal node's flag is set when
its network equals the argument. -/
def markBits : List Bool → Trie → Network → Option Trie
  | _, .nil, _ => none
  | [], .node c0 c1 net agg, n =>
    some (.node c0 c1 net (if net = some n then true else agg))
  | b :: bs, .node c0 c1 net agg, n =>
    if b then (markBits bs c1 n).map fun c1u => .node c0 c1u net agg
    else (markBits bs c0 n).map fun c0u => .node c0u c1 net agg

/-- `PatriciaTrie.mark_as_aggregated(network)`; `none` is the uncaught
`KeyError` of the Python source. -/
def Trie.markAsAggregated (t : Trie) (n : Network) : Option Trie :=
  markBits n.bits t n

/-- Erase every `is_aggregated` flag; two tries with equal `stripFlags` have the
same children structure and the same stored networks everywhere. -/
def stripFlags : Trie → Trie
  | .nil => .nil
  | .node c0 c1 net _ => .node (stripFlags c0) (stripFlags c1) net false

/-- Value of a most-significant-bit-first bit string. -/
def bitsVal : List Bool → Nat
  | [] => 0
  | b :: bs => (if b then 1 else 0) * 2 ^ bs.length + bitsVal bs

/-- Structural invariant of reachable tries: a network stored at depth `d`
below a path of value `v` has prefix length exactly `d` and address exactly
`v * 2^(128-d)` (its path bits followed by zeros). -/
def goodNode : Trie → Nat → Nat → Bool
  | .nil, _, _ => true
  | .node c0 c1 net _, d, v =>
    (match net with
     | none => true
     | some m => decide (m.prefixLen = d) && decide (m.address = v * 2 ^ (128 - d)))
    && goodNode c0 (d + 1) (2 * v) && goodNode c1 (d + 1) (2 * v + 1)


-- The networks of the C3 / C2 concrete scenarios.

/-- `2001:db8::/33`. -/
def netA33 : Network := ⟨0x20010db8 * 2 ^ 96, 33⟩

/-- `2001:db8:8000::/33` — the block immediately after `netA33`
(`netA33.address + 2^95`). -/
def netB33 : Network := ⟨0x20010db8 * 2 ^ 96 + 2 ^ 95, 33⟩

/-- The trie holding only `::/1`, marked once — the concrete after-state used
by the frame-property witness. -/
def trieMarked01 : Trie :=
  .node (.node .nil .nil (some ⟨0, 1⟩) true) .nil none false

-- The aggregation engine (v1 global loop; v3/v5/calcilo per-AS loop).

/-- First-occurrence deduplication: the behavior of pandas
`drop_duplicates()` on a column. -/
def dedupFirst {α : Type} [DecidableEq α] : List α → List α
  | [] => []
  | a :: l => a :: (dedupFirst l).filter fun b => b != a

/-- The sort key comparison of
`sorted(..., key=lambda x: (x.prefixlen, x.network_address))`:
lexicographic on (prefix length, address). -/
def networkLe (a b : Network) : Bool :=
  decide (a.prefixLen < b.prefixLen ∨
    (a.prefixLen = b.prefixLen ∧ a.address ≤ b.address))

/-- Engine state: the event counter `max_agg_prefixes_count`, the
`aggregated_networks` / `aggregated_in_as` skip set, and the shared trie. -/
structure EngState where
  count : Nat
  agg : Finset Network
  trie : Trie
deriving DecidableEq

/-- One iteration of the aggregation loop (`v1.py` lines 119-137; the same
body appears in the per-AS loop of `v3.py`/`v5.py`/`calcilo_metricas.py`):
skip an already-aggregated network, otherwise query the trie; on a match,
increment the counter, add the network to the set, mark it in the trie
(an operation whose unchecked walk may fault), and add the match to the
set. -/
def engStep (st : EngState) (n : Network) : Option EngState :=
  if n ∈ st.agg then some st
  else
    match st.trie.findSupernetOrContiguous n with
    | none => some st
    | some r =>
      (st.trie.markAsAggregated n).map fun tu =>
        ⟨st.count + 1, insert r (insert n st.agg), tu⟩

/-- Running the aggregation loop over a list of networks. -/
def engRun (l : List Network) (st : EngState) : Option EngState :=
  l.foldlM engStep st

/-- The global engine of `v1.py`: deduplicate preserving first-occurrence
order, build the trie from the deduplicated networks, then run the loop over
them (in that same order — v1 does not sort) with a single shared set. -/
def analyzeGlobal (l : List Network) : Option EngState :=
  engRun (dedupFirst l) ⟨0, ∅, buildTrie (dedupFirst l)⟩

/-- The processing sequence of the global loop
(`for network in df['network'].drop_duplicates():`, `v1.py` line 119). -/
def processedGlobal (l : List Network) : List Network :=
  dedupFirst l

/-- `networkLe` as a proposition (the sort key order of the Python
`sorted(..., key=lambda x: (x.prefixlen, x.network_address))`). -/
def NetLe (a b : Network) : Prop :=
  networkLe a b = true

instance : DecidableRel NetLe :=
  fun a b => inferInstanceAs (Decidable (networkLe a b = true))

/-- The processing sequence of one per-AS group
(`sorted(group['network'].drop_duplicates().tolist(), key=...)`,
`v3.py` line 89).  The sort key is the entire network value and the list is
deduplicated, so any sort by this key produces the identical list; a
structurally recursive insertion sort is used. -/
def processedGroup (g : List Network) : List Network :=
  (dedupFirst g).insertionSort NetLe

/-- The networks announced by origin AS `k`, in input order. -/
def groupNets (l : List (Network × String)) (k : String) : List Network :=
  (l.filter fun p => p.2 == k).map Prod.fst

/-- One per-AS group run: fresh (empty) skip set, shared counter and trie. -/
def runGroup (st : Nat × Trie) (g : List Network) : Option (Nat × Trie) :=
  (engRun g ⟨st.1, ∅, st.2⟩).map fun stu => (stu.count, stu.trie)

/-- The per-origin-AS engine of `v3.py` (and `v5.py`,
`calcilo_metricas.py`): the trie is built once from all distinct networks;
each group is deduplicated, sorted and processed with a per-group skip set. -/
def analyzeGrouped (l : List (Network × String)) : Option (Nat × Trie) :=
  (dedupFirst (l.map Prod.snd)).foldlM
    (fun st k => runGroup st (processedGroup (groupNets l k)))
    (0, buildTrie (dedupFirst (l.map Prod.fst)))

/-- Aggregation event count of the global (`v1.py`) engine. -/
def countGlobal (l : List Network) : Option Nat :=
  (analyzeGlobal l).map EngState.count

/-- Aggregation event count of the per-origin-AS (`v3.py`) engine. -/
def countGrouped (l : List (Network × String)) : Option Nat :=
  (analyzeGrouped l).map Prod.fst

/-- The post-group filter of `v5.py` lines 131-133 and
`calcilo_metricas.py` lines 157-159: keep a network of the group's aggregated
set unless some member of the same set has a strictly longer prefix length at
the same address. -/
def filterAggregated (s : Finset Network) : Finset Network :=
  s.filter fun n =>
    ¬ ∃ m ∈ s, n.prefixLen < m.prefixLen ∧ m.address = n.address

-- Concrete inputs used by the C6 and C8 counterexamples.

/-- `::/30`. -/
def netS30 : Network := ⟨0, 30⟩

/-- `::/32`. -/
def netA32 : Network := ⟨0, 32⟩

/-- `::/34`. -/
def netM34 : Network := ⟨0, 34⟩

/-- A three-record input whose grouped run yields more aggregation events
than its global run: `::/34` announced by AS "1", `::/32` and `::/30` by
AS "2". -/
def cexInput : List (Network × String) :=
  [(netM34, "1"), (netA32, "2"), (netS30, "2")]

-- Basic facts about the bit strings.

theorem addrBits_length (a k : Nat) : (addrBits a k).length = k := by
  simp [addrBits]

theorem addrBits_succ (a k : Nat) :
    addrBits a (k + 1) = addrBits a k ++ [a.testBit (127 - k)] := by
  simp [addrBits, List.range_succ]

theorem bitsVal_lt (bs : List Bool) : bitsVal bs < 2 ^ bs.length := by
  induction bs with
  | nil => simp [bitsVal]
  | cons b bs ih =>
    cases b <;> simp [bitsVal, List.length_cons, pow_succ] <;> omega

theorem bitsVal_append (l1 l2 : List Bool) :
    bitsVal (l1 ++ l2) = bitsVal l1 * 2 ^ l2.length + bitsVal l2 := by
  induction l1 with
  | nil => simp [bitsVal]
  | cons b l1 ih =>
    cases b <;>
      simp [bitsVal, ih, List.length_append, pow_add] <;> ring

theorem bitsVal_addrBits (a k : Nat) (ha : a < 2 ^ 128) (hk : k ≤ 128) :
    bitsVal (addrBits a k) = a / 2 ^ (128 - k) := by
  induction k with
  | zero =>
    rw [Nat.sub_zero]
    simp only [addrBits, List.range_zero, List.map_nil, bitsVal]
    exact (Nat.div_eq_of_lt ha).symm
  | succ k ih =>
    have hk' : k ≤ 128 := Nat.le_of_succ_le hk
    have h127 : k ≤ 127 := Nat.lt_succ_iff.mp hk
    rw [addrBits_succ, bitsVal_append, ih hk']
    have hsub : 128 - k = (127 - k) + 1 := by omega
    have hsub2 : 128 - (k + 1) = 127 - k := by omega
    have hdiv : a / 2 ^ (128 - k) = a / 2 ^ (127 - k) / 2 := by
      rw [hsub, pow_succ, Nat.div_div_eq_div_mul]
    have hbit : (if a.testBit (127 - k) then 1 else 0) = a / 2 ^ (127 - k) % 2 := by
      rw [Nat.testBit_to_div_mod]
      rcases Nat.mod_two_eq_zero_or_one (a / 2 ^ (127 - k)) with h | h <;> simp [h]
    have := Nat.div_add_mod (a / 2 ^ (127 - k)) 2
    simp only [bitsVal, List.length_cons, List.length_nil, pow_one, pow_zero]
    rw [hsub2, hdiv]
    omega

/-- Two well-formed networks with the same trie path are the same network. -/
theorem bits_inj {m n : Network} (hm : m.wf) (hn : n.wf) (h : m.bits = n.bits) :
    m = n := by
  obtain ⟨hm1, hm2, hm3⟩ := hm
  obtain ⟨hn1, hn2, hn3⟩ := hn
  have hlen : m.prefixLen = n.prefixLen := by
    have := congrArg List.length h
    simpa [Network.bits, addrBits_length] using this
  have hval : bitsVal m.bits = bitsVal n.bits := congrArg bitsVal h
  rw [Network.bits, Network.bits, bitsVal_addrBits _ _ hm2 hm1,
    bitsVal_addrBits _ _ hn2 hn1, hlen] at hval
  have haddr : m.address = n.address := by
    have hm4 := Nat.div_add_mod m.address (2 ^ (128 - m.prefixLen))
    have hn4 := Nat.div_add_mod n.address (2 ^ (128 - n.prefixLen))
    rw [hm3] at hm4
    rw [hn3] at hn4
    rw [← hm4, ← hn4, hlen, hval]
  cases m; cases n
  simp_all

-- Path lemmas for `insert` (C5 machinery).

theorem walkPath_insertBits_self (bs : List Bool) :
    ∀ (t : Trie) (n : Network),
      ∃ tn, walkPath bs (insertBits bs t n) = some tn ∧ tn.net = some n := by
  induction bs with
  | nil =>
    intro t n
    cases t <;> exact ⟨_, rfl, rfl⟩
  | cons b bs ih =>
    intro t n
    cases t with
    | nil =>
      obtain ⟨tn, h1, h2⟩ := ih .nil n
      cases b <;> exact ⟨tn, by simpa [insertBits, walkPath] using h1, h2⟩
    | node c0 c1 net agg =>
      cases b with
      | false =>
        obtain ⟨tn, h1, h2⟩ := ih c0 n
        exact ⟨tn, by simpa [insertBits, walkPath] using h1, h2⟩
      | true =>
        obtain ⟨tn, h1, h2⟩ := ih c1 n
        exact ⟨tn, by simpa [insertBits, walkPath] using h1, h2⟩

theorem walkPath_net_insertBits (bs : List Bool) :
    ∀ (cs : List Bool) (t : Trie) (m n : Network) (tn : Trie),
      walkPath bs t = some tn → tn.net = some n →
      ∃ tu, walkPath bs (insertBits cs t m) = some tu ∧
        tu.net = if cs = bs then some m else some n := by
  induction bs with
  | nil =>
    intro cs t m n tn h1 h2
    cases t with
    | nil => simp [walkPath] at h1
    | node c0 c1 net agg =>
      have htn : tn = .node c0 c1 net agg := by
        simpa [walkPath] using h1.symm
      subst htn
      cases cs with
      | nil => exact ⟨_, rfl, by simp [insertBits, Trie.net]⟩
      | cons c cs' =>
        cases c with
        | false =>
          refine ⟨.node (insertBits cs' c0 m) c1 net agg, ?_, ?_⟩
          · simp [insertBits, walkPath]
          · simpa [Trie.net] using h2
        | true =>
          refine ⟨.node c0 (insertBits cs' c1 m) net agg, ?_, ?_⟩
          · simp [insertBits, walkPath]
          · simpa [Trie.net] using h2
  | cons b bs ih =>
    intro cs t m n tn h1 h2
    cases t with
    | nil => simp [walkPath] at h1
    | node c0 c1 net agg =>
      cases cs with
      | nil =>
        refine ⟨tn, ?_, by simp [h2]⟩
        cases b <;> simpa [insertBits, walkPath] using h1
      | cons c cs' =>
        by_cases hcb : c = b
        · subst hcb
          cases c with
          | false =>
            have h1' : walkPath bs c0 = some tn := by
              simpa [walkPath] using h1
            obtain ⟨tu, h3, h4⟩ := ih cs' c0 m n tn h1' h2
            refine ⟨tu, by simpa [insertBits, walkPath] using h3, ?_⟩
            simpa using h4
          | true =>
            have h1' : walkPath bs c1 = some tn := by
              simpa [walkPath] using h1
            obtain ⟨tu, h3, h4⟩ := ih cs' c1 m n tn h1' h2
            refine ⟨tu, by simpa [insertBits, walkPath] using h3, ?_⟩
            simpa using h4
        · refine ⟨tn, ?_, ?_⟩
          · cases c <;> cases b <;> simp_all [insertBits, walkPath]
          · have : ¬(c :: cs' = b :: bs) := by simp [hcb]
            simp [this, h2]

theorem insertBits_insertBits_self (bs : List Bool) :
    ∀ (t : Trie) (n : Network),
      insertBits bs (insertBits bs t n) n = insertBits bs t n := by
  induction bs with
  | nil => intro t n; cases t <;> rfl
  | cons b bs ih => intro t n; cases t <;> cases b <;> simp [insertBits, ih]

theorem foldl_insert_walk (N : Network) (hNwf : N.wf) :
    ∀ (l : List Network) (t : Trie),
      (∀ m ∈ l, m.wf) →
      (N ∈ l ∨ ∃ tn, walkPath N.bits t = some tn ∧ tn.net = some N) →
      ∃ tn, walkPath N.bits (l.foldl Trie.insert t) = some tn ∧ tn.net = some N := by
  intro l
  induction l with
  | nil =>
    intro t _ h
    rcases h with h | h
    · simp at h
    · simpa using h
  | cons m l ih =>
    intro t hwf h
    have hmwf : m.wf := hwf m (by simp)
    have hwf' : ∀ x ∈ l, x.wf := fun x hx => hwf x (by simp [hx])
    have hstep : (∃ tn, walkPath N.bits t = some tn ∧ tn.net = some N) →
        ∃ tu, walkPath N.bits (Trie.insert t m) = some tu ∧ tu.net = some N := by
      rintro ⟨tn, h1, h2⟩
      obtain ⟨tu, h3, h4⟩ := walkPath_net_insertBits N.bits m.bits t m N tn h1 h2
      refine ⟨tu, h3, ?_⟩
      by_cases hb : m.bits = N.bits
      · have : m = N := bits_inj hmwf hNwf hb
        subst this
        simpa [hb] using h4
      · simpa [hb] using h4
    rcases h with h | h
    · rcases List.mem_cons.mp h with h | h
      · subst h
        refine ih (Trie.insert t N) hwf' (Or.inr ?_)
        exact walkPath_insertBits_self N.bits t N
      · exact ih (Trie.insert t m) hwf' (Or.inl h)
    · exact ih (Trie.insert t m) hwf' (Or.inr (hstep h))

/-- C5: trie structural invariant, preserved by every sequence of inserts: for
any well-formed inserted network `N`, walking `N`'s prefix bits (a path of
exactly `prefix_length` bits) from the root reaches a node whose network equals
`N`; in particular re-inserting an equal network leaves the trie unchanged. -/
theorem trie_insert_invariant (l : List Network) (N : Network)
    (hmem : N ∈ l) (hwf : ∀ m ∈ l, m.wf) :
    N.bits.length = N.prefixLen ∧
    (∃ tn, walkPath N.bits (buildTrie l) = some tn ∧ tn.net = some N) ∧
    ∀ t : Trie, Trie.insert (Trie.insert t N) N = Trie.insert t N := by
  refine ⟨addrBits_length _ _, ?_, ?_⟩
  · exact foldl_insert_walk N (hwf N hmem) l emptyTrie hwf (Or.inl hmem)
  · intro t
    simp [Trie.insert, insertBits_insertBits_self]

/-- Witness for `trie_insert_invariant` at the concrete list `[::/2]`. -/
theorem trie_insert_invariant_witness :
    (⟨0, 2⟩ : Network) ∈ [(⟨0, 2⟩ : Network)] ∧
    ((⟨0, 2⟩ : Network).bits.length = (⟨0, 2⟩ : Network).prefixLen ∧
      (∃ tn, walkPath (⟨0, 2⟩ : Network).bits (buildTrie [⟨0, 2⟩]) = some tn ∧
        tn.net = some ⟨0, 2⟩) ∧
      ∀ t : Trie, Trie.insert (Trie.insert t ⟨0, 2⟩) ⟨0, 2⟩ = Trie.insert t ⟨0, 2⟩) :=
  ⟨by decide, trie_insert_invariant [⟨0, 2⟩] ⟨0, 2⟩ (by decide) (by decide)⟩

-- The structural invariant `goodNode` holds for every reachable trie
-- (C1 / C4 / C6 machinery).

theorem goodNode_node_intro (c0 c1 : Trie) (net : Option Network) (agg : Bool)
    (d v : Nat)
    (h1 : ∀ m, net = some m → m.prefixLen = d ∧ m.address = v * 2 ^ (128 - d))
    (h2 : goodNode c0 (d + 1) (2 * v) = true)
    (h3 : goodNode c1 (d + 1) (2 * v + 1) = true) :
    goodNode (.node c0 c1 net agg) d v = true := by
  cases net with
  | none => simp [goodNode, h2, h3]
  | some m =>
    simp only [goodNode, Bool.and_eq_true, decide_eq_true_eq]
    exact ⟨⟨h1 m rfl, h2⟩, h3⟩

theorem goodNode_node_net {c0 c1 : Trie} {net : Option Network} {agg : Bool}
    {d v : Nat} (hg : goodNode (.node c0 c1 net agg) d v = true)
    {m : Network} (hm : net = some m) :
    m.prefixLen = d ∧ m.address = v * 2 ^ (128 - d) := by
  subst hm
  simp only [goodNode, Bool.and_eq_true, decide_eq_true_eq] at hg
  exact hg.1.1

theorem goodNode_node_c0 {c0 c1 : Trie} {net : Option Network} {agg : Bool}
    {d v : Nat} (hg : goodNode (.node c0 c1 net agg) d v = true) :
    goodNode c0 (d + 1) (2 * v) = true := by
  cases net <;>
    simp only [goodNode, Bool.and_eq_true] at hg <;> exact hg.1.2

theorem goodNode_node_c1 {c0 c1 : Trie} {net : Option Network} {agg : Bool}
    {d v : Nat} (hg : goodNode (.node c0 c1 net agg) d v = true) :
    goodNode c1 (d + 1) (2 * v + 1) = true := by
  cases net <;>
    simp only [goodNode, Bool.and_eq_true] at hg <;> exact hg.2

theorem bitsVal_cons_shift (b : Bool) (bs : List Bool) (v : Nat) :
    v * 2 ^ (b :: bs).length + bitsVal (b :: bs) =
      (2 * v + (if b then 1 else 0)) * 2 ^ bs.length + bitsVal bs := by
  cases b <;> simp only [bitsVal, List.length_cons, pow_succ] <;> ring

theorem goodNode_insertBits (bs : List Bool) :
    ∀ (t : Trie) (n : Network) (d v : Nat),
      goodNode t d v = true →
      n.prefixLen = d + bs.length →
      n.address = (v * 2 ^ bs.length + bitsVal bs) * 2 ^ (128 - n.prefixLen) →
      goodNode (insertBits bs t n) d v = true := by
  induction bs with
  | nil =>
    intro t n d v hg hlen haddr
    have hlen' : n.prefixLen = d := by simpa using hlen
    have haddr' : n.address = v * 2 ^ (128 - d) := by
      rw [haddr, hlen']
      simp [bitsVal]
    have hnet : ∀ m : Network, some n = some m →
        m.prefixLen = d ∧ m.address = v * 2 ^ (128 - d) := by
      intro m hm
      cases hm
      exact ⟨hlen', haddr'⟩
    cases t with
    | nil => exact goodNode_node_intro _ _ _ _ _ _ hnet rfl rfl
    | node c0 c1 net agg =>
      exact goodNode_node_intro _ _ _ _ _ _ hnet
        (goodNode_node_c0 hg) (goodNode_node_c1 hg)
  | cons b bs ih =>
    intro t n d v hg hlen haddr
    have hlen' : n.prefixLen = (d + 1) + bs.length := by
      simp only [List.length_cons] at hlen
      omega
    have haddr0 : n.address =
        ((2 * v + (if b then 1 else 0)) * 2 ^ bs.length + bitsVal bs) *
          2 ^ (128 - n.prefixLen) := by
      rw [haddr, bitsVal_cons_shift]
    cases t with
    | nil =>
      cases b with
      | false =>
        have hrec := ih .nil n (d + 1) (2 * v) rfl hlen' (by simpa using haddr0)
        simp only [insertBits, Bool.false_eq_true, if_neg, ite_false]
        exact goodNode_node_intro _ _ _ _ _ _ (by intro m hm; cases hm) hrec rfl
      | true =>
        have hrec := ih .nil n (d + 1) (2 * v + 1) rfl hlen' (by simpa using haddr0)
        simp only [insertBits, ite_true]
        exact goodNode_node_intro _ _ _ _ _ _ (by intro m hm; cases hm) rfl hrec
    | node c0 c1 net agg =>
      cases b with
      | false =>
        have hrec := ih c0 n (d + 1) (2 * v) (goodNode_node_c0 hg) hlen'
          (by simpa using haddr0)
        simp only [insertBits, Bool.false_eq_true, if_neg, ite_false]
        exact goodNode_node_intro _ _ _ _ _ _
          (fun m hm => goodNode_node_net hg hm) hrec (goodNode_node_c1 hg)
      | true =>
        have hrec := ih c1 n (d + 1) (2 * v + 1) (goodNode_node_c1 hg) hlen'
          (by simpa using haddr0)
        simp only [insertBits, ite_true]
        exact goodNode_node_intro _ _ _ _ _ _
          (fun m hm => goodNode_node_net hg hm) (goodNode_node_c0 hg) hrec

theorem goodNode_insert (t : Trie) (n : Network) (hn : n.wf)
    (hg : goodNode t 0 0 = true) : goodNode (Trie.insert t n) 0 0 = true := by
  obtain ⟨h1, h2, h3⟩ := hn
  refine goodNode_insertBits n.bits t n 0 0 hg ?_ ?_
  · simp [Network.bits, addrBits_length]
  · have hv : bitsVal n.bits = n.address / 2 ^ (128 - n.prefixLen) :=
      bitsVal_addrBits n.address n.prefixLen h2 h1
    have hc : n.address / 2 ^ (128 - n.prefixLen) * 2 ^ (128 - n.prefixLen) =
        n.address := Nat.div_mul_cancel (Nat.dvd_of_mod_eq_zero h3)
    rw [hv]
    simpa using hc.symm

theorem goodNode_buildTrie (l : List Network) (hwf : ∀ m ∈ l, m.wf) :
    goodNode (buildTrie l) 0 0 = true := by
  have : ∀ (l' : List Network) (t : Trie), (∀ m ∈ l', m.wf) →
      goodNode t 0 0 = true → goodNode (l'.foldl Trie.insert t) 0 0 = true := by
    intro l'
    induction l' with
    | nil => intro t _ h; simpa using h
    | cons m l' ih =>
      intro t hwf' hg
      exact ih (Trie.insert t m) (fun x hx => hwf' x (by simp [hx]))
        (goodNode_insert t m (hwf' m (by simp)) hg)
  exact this l emptyTrie hwf rfl

-- The contiguity branch of `find_supernet_or_contiguous` can never fire on a
-- reachable trie: every network stored along the query's bit path has an
-- address no larger than the query's address.

theorem walkFind_fst_le (bs : List Bool) :
    ∀ (t : Trie) (d v qlen : Nat) (c : Option Network) (m : Network),
      goodNode t d v = true →
      d + bs.length = 128 →
      (walkFind bs t qlen c).1 = some m →
      m.address ≤ v * 2 ^ bs.length + bitsVal bs := by
  induction bs with
  | nil =>
    intro t d v qlen c m hg hd h
    cases t with
    | nil => simp [walkFind] at h
    | node c0 c1 net agg =>
      simp only [walkFind] at h
      have hmn := goodNode_node_net hg h
      have hd' : d = 128 := by simpa using hd
      rw [hmn.2, hd']
      simp [bitsVal]
  | cons b bs ih =>
    intro t d v qlen c m hg hd h
    have hd' : (d + 1) + bs.length = 128 := by
      simp only [List.length_cons] at hd
      omega
    cases t with
    | nil => simp [walkFind] at h
    | node c0 c1 net agg =>
      have hterm : net = some m →
          m.address ≤ v * 2 ^ (b :: bs).length + bitsVal (b :: bs) := by
        intro hm
        have hmn := goodNode_node_net hg hm
        have hdd : 128 - d = bs.length + 1 := by
          simp only [List.length_cons] at hd
          omega
        rw [hmn.2, hdd]
        simp only [List.length_cons, pow_succ]
        cases b <;> simp [bitsVal]
      cases b with
      | false =>
        cases hc0 : c0 with
        | nil =>
          rw [show walkFind (false :: bs) (.node c0 c1 net agg) qlen c =
              (net, c) from by rw [hc0]; simp [walkFind]] at h
          exact hterm h
        | node d0 d1 dn da =>
          rw [show walkFind (false :: bs) (.node c0 c1 net agg) qlen c =
              walkFind bs (.node d0 d1 dn da) qlen (updCand dn qlen c) from by
            rw [hc0]; simp [walkFind]] at h
          have hgc : goodNode (.node d0 d1 dn da) (d + 1) (2 * v) = true := by
            rw [← hc0]
            exact goodNode_node_c0 hg
          have hrec := ih (.node d0 d1 dn da) (d + 1) (2 * v) qlen
            (updCand dn qlen c) m hgc hd' h
          have := bitsVal_cons_shift false bs v
          simp only [ite_false, Bool.false_eq_true, if_neg, Nat.add_zero] at this
          omega
      | true =>
        cases hc1 : c1 with
        | nil =>
          rw [show walkFind (true :: bs) (.node c0 c1 net agg) qlen c =
              (net, c) from by rw [hc1]; simp [walkFind]] at h
          exact hterm h
        | node d0 d1 dn da =>
          rw [show walkFind (true :: bs) (.node c0 c1 net agg) qlen c =
              walkFind bs (.node d0 d1 dn da) qlen (updCand dn qlen c) from by
            rw [hc1]; simp [walkFind]] at h
          have hgc : goodNode (.node d0 d1 dn da) (d + 1) (2 * v + 1) = true := by
            rw [← hc1]
            exact goodNode_node_c1 hg
          have hrec := ih (.node d0 d1 dn da) (d + 1) (2 * v + 1) qlen
            (updCand dn qlen c) m hgc hd' h
          have := bitsVal_cons_shift true bs v
          simp only [ite_true] at this
          omega

theorem findSupernetOrContiguous_eq_CM (t : Trie) (q : Network)
    (hg : goodNode t 0 0 = true) (hq : q.address < 2 ^ 128) :
    t.findSupernetOrContiguous q = t.findSupernetOrContiguousCM q := by
  unfold Trie.findSupernetOrContiguous Trie.findSupernetOrContiguousCM
  rcases hw : walkFind (addrBits q.address 128) t q.prefixLen none with ⟨fst, cand⟩
  cases fst with
  | none => simp
  | some m =>
    have hlen128 : (addrBits q.address 128).length = 128 := addrBits_length _ _
    have hle : m.address ≤ 0 * 2 ^ (addrBits q.address 128).length +
        bitsVal (addrBits q.address 128) :=
      walkFind_fst_le (addrBits q.address 128) t 0 0 q.prefixLen none m hg
        (by rw [hlen128]) (by rw [hw])
    have hv : bitsVal (addrBits q.address 128) = q.address := by
      rw [bitsVal_addrBits q.address 128 hq le_rfl]
      simp
    have hpos : 0 < 2 ^ (128 - q.prefixLen) := Nat.pos_pow_of_pos _ (by norm_num)
    have hne : ¬ m.address = q.address + 2 ^ (128 - q.prefixLen) := by
      rw [hv] at hle
      omega
    simp [hne]

/-- C2: the code raises an unchecked `KeyError` when `mark_as_aggregated` is
asked to walk a path that does not exist.  After inserting only `2001:db8::/33`,
marking its contiguous neighbor `2001:db8:8000::/33` (exactly the
contiguous-neighbor scenario of the spec) walks a missing child and faults
(`none`), instead of completing as a safe no-op. -/
theorem mark_as_aggregated_faults_on_missing_path :
    Trie.markAsAggregated (Trie.insert emptyTrie netA33) netB33 = none := by
  decide

/-- C3: inserting `A = 2001:db8::/33` into an empty trie and querying
`B = 2001:db8:8000::/33` returns nothing — the walk stops at depth 32, before
any stored network, and the contiguity comparison never succeeds — although the
spec (and the code's own comments) say the contiguity match `A` is returned. -/
theorem contiguous_query_returns_none :
    Trie.findSupernetOrContiguous (Trie.insert emptyTrie netA33) netB33 = none := by
  decide

/-- C1: the `find_supernet_or_contiguous` of `v1.py` and the one of
`calcilo_metricas.py` (contiguity block commented out) compute the same
function: on every trie state reachable by inserting well-formed networks —
equivalently, any trie satisfying the structural invariant `goodNode` — and
every query network whose address fits in 128 bits, the two implementations
return the same result, because the contiguity branch of the v1 version is
dead code on such tries. -/
theorem find_v1_eq_find_calcilo (t : Trie) (q : Network)
    (hg : goodNode t 0 0 = true) (hq : q.address < 2 ^ 128) :
    t.findSupernetOrContiguous q = t.findSupernetOrContiguousCM q :=
  findSupernetOrContiguous_eq_CM t q hg hq

/-- Witness for `find_v1_eq_find_calcilo`: the trie holding `::/32`, queried
with `::/48`. -/
theorem find_v1_eq_find_calcilo_witness :
    goodNode (buildTrie [⟨0, 32⟩]) 0 0 = true ∧
    (⟨0, 48⟩ : Network).address < 2 ^ 128 ∧
    (buildTrie [⟨0, 32⟩]).findSupernetOrContiguous ⟨0, 48⟩ =
      (buildTrie [⟨0, 32⟩]).findSupernetOrContiguousCM ⟨0, 48⟩ :=
  ⟨by decide, by decide, find_v1_eq_find_calcilo _ _ (by decide) (by decide)⟩

-- Walking the single spine produced by inserting one network into an empty
-- trie (C4 machinery).

theorem insertBits_ne_nil (bs : List Bool) (t : Trie) (n : Network) :
    insertBits bs t n ≠ .nil := by
  cases bs with
  | nil => cases t <;> simp [insertBits]
  | cons b bs => cases t <;> cases b <;> simp [insertBits]

theorem walkFind_cons_node (a : Bool) (rest : List Bool) (c0 c1 : Trie)
    (net : Option Network) (agg : Bool) (qlen : Nat) (c : Option Network)
    (h : (if a then c1 else c0) ≠ .nil) :
    walkFind (a :: rest) (.node c0 c1 net agg) qlen c =
      walkFind rest (if a then c1 else c0) qlen
        (updCand (if a then c1 else c0).net qlen c) := by
  cases a with
  | false =>
    cases c0 with
    | nil => simp at h
    | node d0 d1 dn da => simp [walkFind, Trie.net]
  | true =>
    cases c1 with
    | nil => simp at h
    | node d0 d1 dn da => simp [walkFind, Trie.net]

theorem insertBits_cons_nil_net (x : Bool) (xs : List Bool) (n : Network) :
    (insertBits (x :: xs) .nil n).net = none := by
  cases x <;> rfl

theorem walkFind_spine (n : Network) (qlen : Nat) :
    ∀ (as : List Bool) (b : Bool) (r : List Bool) (c : Option Network),
      walkFind (as ++ b :: r) (insertBits as .nil n) qlen c =
        (some n,
          if as = [] then c
          else if n.prefixLen < qlen then some n else c) := by
  intro as
  induction as with
  | nil =>
    intro b r c
    cases b <;> simp [insertBits, walkFind]
  | cons a as ih =>
    intro b r c
    have hne := insertBits_ne_nil as Trie.nil n
    cases a with
    | false =>
      have hstep : walkFind ((false :: as) ++ b :: r)
          (insertBits (false :: as) .nil n) qlen c =
          walkFind (as ++ b :: r) (insertBits as .nil n) qlen
            (updCand (insertBits as .nil n).net qlen c) := by
        have := walkFind_cons_node false (as ++ b :: r)
          (insertBits as .nil n) .nil none false qlen c (by simpa using hne)
        simpa [insertBits] using this
      rw [hstep, ih b r _]
      cases as with
      | nil => simp [insertBits, Trie.net, updCand]
      | cons x xs => simp [insertBits_cons_nil_net, updCand]
    | true =>
      have hstep : walkFind ((true :: as) ++ b :: r)
          (insertBits (true :: as) .nil n) qlen c =
          walkFind (as ++ b :: r) (insertBits as .nil n) qlen
            (updCand (insertBits as .nil n).net qlen c) := by
        have := walkFind_cons_node true (as ++ b :: r)
          .nil (insertBits as .nil n) none false qlen c (by simpa using hne)
        simpa [insertBits] using this
      rw [hstep, ih b r _]
      cases as with
      | nil => simp [insertBits, Trie.net, updCand]
      | cons x xs => simp [insertBits_cons_nil_net, updCand]

theorem addrBits_split (a : Nat) (k : Nat) (hk : k ≤ 128) :
    addrBits a 128 = addrBits a k ++
      (List.range (128 - k)).map fun i => a.testBit (127 - (k + i)) := by
  have h : 128 = k + (128 - k) := by omega
  rw [show addrBits a 128 = addrBits a (k + (128 - k)) from by rw [← h]]
  unfold addrBits
  rw [List.range_add, List.map_append, List.map_map]
  rfl

/-- C4 (amended with `0 < A.prefix_length`): for well-formed networks `A` and
`B` with `1 ≤ A.prefix_length < B.prefix_length` and `A`'s bit-prefix a strict
prefix of `B`'s, after inserting `A` into an empty trie,
`find_supernet_or_contiguous(B)` returns `A`. -/
theorem find_returns_strict_supernet (A B : Network)
    (hA : A.wf) (hB : B.wf) (hApos : 0 < A.prefixLen)
    (hlt : A.prefixLen < B.prefixLen)
    (hpre : addrBits A.address A.prefixLen = addrBits B.address A.prefixLen) :
    Trie.findSupernetOrContiguous (Trie.insert emptyTrie A) B = some A := by
  obtain ⟨hA1, hA2, hA3⟩ := hA
  obtain ⟨hB1, hB2, hB3⟩ := hB
  have hsplit := addrBits_split B.address A.prefixLen hA1
  have hlen : A.prefixLen < 128 := lt_of_lt_of_le hlt hB1
  have htail : ∃ b r, ((List.range (128 - A.prefixLen)).map
      fun i => B.address.testBit (127 - (A.prefixLen + i))) = b :: r := by
    cases hc : (List.range (128 - A.prefixLen)).map
        (fun i => B.address.testBit (127 - (A.prefixLen + i))) with
    | nil =>
      exfalso
      have := congrArg List.length hc
      simp at this
      omega
    | cons b r => exact ⟨b, r, rfl⟩
  obtain ⟨b, r, htl⟩ := htail
  have hAbitsne : A.bits ≠ [] := by
    intro hnil
    have := congrArg List.length hnil
    simp [Network.bits, addrBits_length] at this
    omega
  have hins : Trie.insert emptyTrie A = insertBits A.bits .nil A := by
    unfold Trie.insert emptyTrie
    cases hb : A.bits with
    | nil => exact absurd hb hAbitsne
    | cons x xs => cases x <;> simp [insertBits]
  have hwalk : walkFind (addrBits B.address 128) (Trie.insert emptyTrie A)
      B.prefixLen none = (some A, some A) := by
    rw [hins, hsplit, htl, ← hpre,
      show addrBits A.address A.prefixLen = A.bits from rfl, walkFind_spine]
    simp [hAbitsne, hlt]
  unfold Trie.findSupernetOrContiguous
  rw [hwalk]
  show (if A.address = B.address + 2 ^ (128 - B.prefixLen)
    then some A else some A) = some A
  split <;> rfl

/-- Witness for `find_returns_strict_supernet`: the spec's own example,
insert `2001:db8::/32`, query `2001:db8:1::/48`. -/
theorem find_returns_strict_supernet_witness :
    (⟨0x20010db8 * 2 ^ 96, 32⟩ : Network).wf ∧
    (⟨0x20010db8 * 2 ^ 96 + 2 ^ 80, 48⟩ : Network).wf ∧
    (0 : Nat) < 32 ∧ (32 : Nat) < 48 ∧
    addrBits (0x20010db8 * 2 ^ 96) 32 =
      addrBits (0x20010db8 * 2 ^ 96 + 2 ^ 80) 32 ∧
    Trie.findSupernetOrContiguous
      (Trie.insert emptyTrie ⟨0x20010db8 * 2 ^ 96, 32⟩)
      ⟨0x20010db8 * 2 ^ 96 + 2 ^ 80, 48⟩ = some ⟨0x20010db8 * 2 ^ 96, 32⟩ :=
  ⟨by decide, by decide, by decide, by decide, by decide,
    find_returns_strict_supernet _ _ (by decide) (by decide) (by decide)
      (by decide) (by decide)⟩

/-- C4 as literally stated is false at `A = ::/0`: the empty bit-prefix is a
strict prefix of every other network's bit-prefix, yet after inserting `::/0`
the query `::/1` returns nothing (the walk never records the root's network as
a supernet candidate). -/
theorem find_no_result_for_default_route :
    (⟨0, 0⟩ : Network).wf ∧ (⟨0, 1⟩ : Network).wf ∧
    (⟨0, 0⟩ : Network).prefixLen < (⟨0, 1⟩ : Network).prefixLen ∧
    addrBits (⟨0, 0⟩ : Network).address (⟨0, 0⟩ : Network).prefixLen =
      addrBits (⟨0, 1⟩ : Network).address (⟨0, 0⟩ : Network).prefixLen ∧
    Trie.findSupernetOrContiguous (Trie.insert emptyTrie ⟨0, 0⟩) ⟨0, 1⟩ ≠
      some ⟨0, 0⟩ := by
  decide

-- Frame lemmas: `mark_as_aggregated` changes only aggregation flags
-- (C10 machinery, also used to analyze the engine runs).

theorem markBits_strip (bs : List Bool) :
    ∀ (t : Trie) (n : Network) (tu : Trie),
      markBits bs t n = some tu → stripFlags tu = stripFlags t := by
  induction bs with
  | nil =>
    intro t n tu h
    cases t with
    | nil => simp [markBits] at h
    | node c0 c1 net agg =>
      simp only [markBits, Option.some_inj] at h
      subst h
      simp [stripFlags]
  | cons b bs ih =>
    intro t n tu h
    cases t with
    | nil => simp [markBits] at h
    | node c0 c1 net agg =>
      cases b with
      | false =>
        simp only [markBits, Bool.false_eq_true, if_neg, ite_false,
          Option.map_eq_some'] at h
        obtain ⟨cu, h1, h2⟩ := h
        subst h2
        simp [stripFlags, ih c0 n cu h1]
      | true =>
        simp only [markBits, ite_true, Option.map_eq_some'] at h
        obtain ⟨cu, h1, h2⟩ := h
        subst h2
        simp [stripFlags, ih c1 n cu h1]

theorem markBits_isSome (bs : List Bool) :
    ∀ (t : Trie) (n : Network),
      (markBits bs t n).isSome = (walkPath bs t).isSome := by
  induction bs with
  | nil => intro t n; cases t <;> simp [markBits, walkPath]
  | cons b bs ih =>
    intro t n
    cases t with
    | nil => simp [markBits, walkPath]
    | node c0 c1 net agg =>
      cases b <;> simp [markBits, walkPath, ih]

theorem stripFlags_eq_nil {t : Trie} (h : stripFlags t = .nil) : t = .nil := by
  cases t with
  | nil => rfl
  | node c0 c1 net agg => simp [stripFlags] at h

theorem walkPath_isSome_strip (bs : List Bool) :
    ∀ (t t' : Trie), stripFlags t = stripFlags t' →
      (walkPath bs t).isSome = (walkPath bs t').isSome := by
  induction bs with
  | nil =>
    intro t t' h
    cases t <;> cases t' <;> simp_all [stripFlags, walkPath]
  | cons b bs ih =>
    intro t t' h
    cases t with
    | nil =>
      cases t' with
      | nil => rfl
      | node c0 c1 net agg => simp [stripFlags] at h
    | node c0 c1 net agg =>
      cases t' with
      | nil => simp [stripFlags] at h
      | node c0' c1' net' agg' =>
        simp only [stripFlags, Trie.node.injEq] at h
        obtain ⟨h0, h1, -, -⟩ := h
        cases b with
        | false => simpa [walkPath] using ih c0 c0' h0
        | true => simpa [walkPath] using ih c1 c1' h1

theorem walkFind_strip (bs : List Bool) :
    ∀ (t t' : Trie) (qlen : Nat) (c : Option Network),
      stripFlags t = stripFlags t' →
      walkFind bs t qlen c = walkFind bs t' qlen c := by
  induction bs with
  | nil =>
    intro t t' qlen c h
    cases t <;> cases t' <;> simp_all [stripFlags, walkFind]
  | cons b bs ih =>
    intro t t' qlen c h
    cases t with
    | nil =>
      cases t' with
      | nil => rfl
      | node c0 c1 net agg => simp [stripFlags] at h
    | node c0 c1 net agg =>
      cases t' with
      | nil => simp [stripFlags] at h
      | node c0' c1' net' agg' =>
        simp only [stripFlags, Trie.node.injEq] at h
        obtain ⟨h0, h1, hnet, -⟩ := h
        subst hnet
        cases b with
        | false =>
          cases c0 with
          | nil =>
            have hc' : c0' = .nil := by
              apply stripFlags_eq_nil
              rw [← h0]
              rfl
            rw [hc']
            simp [walkFind]
          | node d0 d1 dn da =>
            cases c0' with
            | nil =>
              exfalso
              simp [stripFlags] at h0
            | node e0 e1 en ea =>
              simp only [stripFlags, Trie.node.injEq] at h0
              obtain ⟨g0, g1, gn, -⟩ := h0
              subst gn
              have hchild : stripFlags (Trie.node d0 d1 dn da) =
                  stripFlags (Trie.node e0 e1 dn ea) := by
                simp [stripFlags, g0, g1]
              simpa [walkFind] using
                ih (.node d0 d1 dn da) (.node e0 e1 dn ea) qlen
                  (updCand dn qlen c) hchild
        | true =>
          cases c1 with
          | nil =>
            have hc' : c1' = .nil := by
              apply stripFlags_eq_nil
              rw [← h1]
              rfl
            rw [hc']
            simp [walkFind]
          | node d0 d1 dn da =>
            cases c1' with
            | nil =>
              exfalso
              simp [stripFlags] at h1
            | node e0 e1 en ea =>
              simp only [stripFlags, Trie.node.injEq] at h1
              obtain ⟨g0, g1, gn, -⟩ := h1
              subst gn
              have hchild : stripFlags (Trie.node d0 d1 dn da) =
                  stripFlags (Trie.node e0 e1 dn ea) := by
                simp [stripFlags, g0, g1]
              simpa [walkFind] using
                ih (.node d0 d1 dn da) (.node e0 e1 dn ea) qlen
                  (updCand dn qlen c) hchild

theorem findSupernetOrContiguous_strip (t t' : Trie) (q : Network)
    (h : stripFlags t = stripFlags t') :
    t.findSupernetOrContiguous q = t'.findSupernetOrContiguous q := by
  unfold Trie.findSupernetOrContiguous
  rw [walkFind_strip (addrBits q.address 128) t t' q.prefixLen none h]

theorem mark_isSome_strip (t t' : Trie) (n : Network)
    (h : stripFlags t = stripFlags t') :
    (t.markAsAggregated n).isSome = (t'.markAsAggregated n).isSome := by
  unfold Trie.markAsAggregated
  rw [markBits_isSome, markBits_isSome, walkPath_isSome_strip n.bits t t' h]

theorem foldlM_mark_strip (ms : List Network) :
    ∀ (t tu : Trie), ms.foldlM Trie.markAsAggregated t = some tu →
      stripFlags tu = stripFlags t := by
  induction ms with
  | nil =>
    intro t tu h
    simp only [List.foldlM_nil, Option.pure_def, Option.some_inj] at h
    rw [h]
  | cons m ms ih =>
    intro t tu h
    simp only [List.foldlM_cons] at h
    obtain ⟨t1, h1, h2⟩ := Option.bind_eq_some.mp h
    calc stripFlags tu = stripFlags t1 := ih t1 tu h2
      _ = stripFlags t := markBits_strip m.bits t m t1 h1

/-- C10: `mark_as_aggregated` is write-only on the `is_aggregated` flags —
after any sequence of successful marks the trie has the same children
structure and stored networks (equal `stripFlags`), and
`find_supernet_or_contiguous` returns the same result for every query as
before. -/
theorem mark_as_aggregated_frame (t : Trie) (ms : List Network) (tu : Trie)
    (h : ms.foldlM Trie.markAsAggregated t = some tu) :
    stripFlags tu = stripFlags t ∧
    ∀ q : Network, tu.findSupernetOrContiguous q = t.findSupernetOrContiguous q := by
  have hs : stripFlags tu = stripFlags t := foldlM_mark_strip ms t tu h
  exact ⟨hs, fun q => findSupernetOrContiguous_strip tu t q hs⟩

/-- Witness for `mark_as_aggregated_frame`: insert `::/1`, mark it, then
query `::/2`. -/
theorem mark_as_aggregated_frame_witness :
    ([(⟨0, 1⟩ : Network)].foldlM Trie.markAsAggregated
      (Trie.insert emptyTrie ⟨0, 1⟩) = some trieMarked01) ∧
    stripFlags trieMarked01 = stripFlags (Trie.insert emptyTrie ⟨0, 1⟩) ∧
    trieMarked01.findSupernetOrContiguous ⟨0, 2⟩ =
      (Trie.insert emptyTrie ⟨0, 1⟩).findSupernetOrContiguous ⟨0, 2⟩ :=
  ⟨by decide,
    (mark_as_aggregated_frame (Trie.insert emptyTrie ⟨0, 1⟩) [⟨0, 1⟩]
      trieMarked01 (by decide)).1,
    (mark_as_aggregated_frame (Trie.insert emptyTrie ⟨0, 1⟩) [⟨0, 1⟩]
      trieMarked01 (by decide)).2 ⟨0, 2⟩⟩

-- Path existence in built tries (no-fault machinery for the engine runs).

theorem walkPath_isSome_insertBits (bs : List Bool) :
    ∀ (cs : List Bool) (t : Trie) (m : Network),
      (walkPath bs t).isSome → (walkPath bs (insertBits cs t m)).isSome := by
  induction bs with
  | nil =>
    intro cs t m h
    cases t with
    | nil => simp [walkPath] at h
    | node c0 c1 net agg =>
      cases cs with
      | nil => simp [insertBits, walkPath]
      | cons c cs' => cases c <;> simp [insertBits, walkPath]
  | cons b bs ih =>
    intro cs t m h
    cases t with
    | nil => simp [walkPath] at h
    | node c0 c1 net agg =>
      cases cs with
      | nil =>
        cases b <;> simpa [insertBits, walkPath] using h
      | cons c cs' =>
        cases c with
        | false =>
          cases b with
          | false =>
            have h' : (walkPath bs c0).isSome := by simpa [walkPath] using h
            simpa [insertBits, walkPath] using ih cs' c0 m h'
          | true => simpa [insertBits, walkPath] using h
        | true =>
          cases b with
          | false => simpa [insertBits, walkPath] using h
          | true =>
            have h' : (walkPath bs c1).isSome := by simpa [walkPath] using h
            simpa [insertBits, walkPath] using ih cs' c1 m h'

theorem buildTrie_path (g : List Network) (n : Network) (hn : n ∈ g) :
    (walkPath n.bits (buildTrie g)).isSome := by
  have : ∀ (l : List Network) (t : Trie),
      (n ∈ l ∨ (walkPath n.bits t).isSome) →
      (walkPath n.bits (l.foldl Trie.insert t)).isSome := by
    intro l
    induction l with
    | nil =>
      intro t h
      rcases h with h | h
      · simp at h
      · simpa using h
    | cons m l ih =>
      intro t h
      rcases h with h | h
      · rcases List.mem_cons.mp h with h | h
        · subst h
          refine ih (Trie.insert t n) (Or.inr ?_)
          obtain ⟨tn, h1, -⟩ := walkPath_insertBits_self n.bits t n
          simp [Trie.insert, h1]
        · exact ih (Trie.insert t m) (Or.inl h)
      · exact ih (Trie.insert t m) (Or.inr (walkPath_isSome_insertBits n.bits m.bits t m h))
  exact this g emptyTrie (Or.inl hn)

-- Behavior of one engine run (C6 / C7 machinery).

theorem engRun_congr (l : List Network) :
    ∀ (c : Nat) (a : Finset Network) (t t' : Trie),
      stripFlags t = stripFlags t' →
      ((engRun l ⟨c, a, t⟩).map fun s => (s.count, s.agg, stripFlags s.trie)) =
      ((engRun l ⟨c, a, t'⟩).map fun s => (s.count, s.agg, stripFlags s.trie)) := by
  induction l with
  | nil =>
    intro c a t t' h
    simp [engRun, h]
  | cons n l ih =>
    intro c a t t' h
    rw [engRun, List.foldlM_cons, engRun, List.foldlM_cons]
    by_cases hmem : n ∈ a
    · simp only [engStep, if_pos hmem]
      simpa [Option.some_bind] using ih c a t t' h
    · have hfind : Trie.findSupernetOrContiguous t n =
          Trie.findSupernetOrContiguous t' n :=
        findSupernetOrContiguous_strip t t' n h
      cases hf : Trie.findSupernetOrContiguous t' n with
      | none =>
        simp only [engStep, if_neg hmem, hfind, hf]
        simpa [Option.some_bind] using ih c a t t' h
      | some r =>
        have hiso : (t.markAsAggregated n).isSome = (t'.markAsAggregated n).isSome :=
          mark_isSome_strip t t' n h
        cases hm : t.markAsAggregated n with
        | none =>
          have hm' : t'.markAsAggregated n = none := by
            rw [hm] at hiso
            cases hmm : t'.markAsAggregated n with
            | none => rfl
            | some x => rw [hmm] at hiso; simp at hiso
          simp [engStep, if_neg hmem, hfind, hf, hm, hm']
        | some tu =>
          have hm' : ∃ tu', t'.markAsAggregated n = some tu' := by
            rw [hm] at hiso
            cases hmm : t'.markAsAggregated n with
            | none => rw [hmm] at hiso; simp at hiso
            | some x => exact ⟨x, rfl⟩
          obtain ⟨tu', hm'⟩ := hm'
          have hstrip : stripFlags tu = stripFlags tu' := by
            have e1 : stripFlags tu = stripFlags t := markBits_strip n.bits t n tu hm
            have e2 : stripFlags tu' = stripFlags t' := markBits_strip n.bits t' n tu' hm'
            rw [e1, e2, h]
          simp only [engStep, if_neg hmem, hfind, hf, hm, hm', Option.map_some']
          simpa [Option.some_bind] using
            ih (c + 1) (insert r (insert n a)) tu tu' hstrip

theorem engRun_some (l : List Network) :
    ∀ (st : EngState) (T : Trie),
      stripFlags st.trie = stripFlags T →
      (∀ n ∈ l, (walkPath n.bits T).isSome) →
      ∃ stu, engRun l st = some stu ∧ stripFlags stu.trie = stripFlags T ∧
        stu.count ≤ st.count +
          l.countP fun n => (T.findSupernetOrContiguous n).isSome := by
  induction l with
  | nil =>
    intro st T h _
    exact ⟨st, rfl, h, by simp⟩
  | cons n l ih =>
    intro st T hstrip hpaths
    have hpaths' : ∀ x ∈ l, (walkPath x.bits T).isSome :=
      fun x hx => hpaths x (by simp [hx])
    have hcount : l.countP (fun x => (T.findSupernetOrContiguous x).isSome) ≤
        (n :: l).countP fun x => (T.findSupernetOrContiguous x).isSome := by
      simp only [List.countP_cons]
      omega
    have hfind : st.trie.findSupernetOrContiguous n =
        T.findSupernetOrContiguous n :=
      findSupernetOrContiguous_strip st.trie T n hstrip
    by_cases hmem : n ∈ st.agg
    · obtain ⟨stu, h1, h2, h3⟩ := ih st T hstrip hpaths'
      refine ⟨stu, ?_, h2, by omega⟩
      rw [engRun, List.foldlM_cons]
      simp only [engStep, if_pos hmem, Option.some_bind]
      exact h1
    · cases hf : T.findSupernetOrContiguous n with
      | none =>
        obtain ⟨stu, h1, h2, h3⟩ := ih st T hstrip hpaths'
        refine ⟨stu, ?_, h2, ?_⟩
        · rw [engRun, List.foldlM_cons]
          simp only [engStep, if_neg hmem, hfind, hf, Option.some_bind]
          exact h1
        · have : (n :: l).countP (fun x => (T.findSupernetOrContiguous x).isSome) =
              l.countP fun x => (T.findSupernetOrContiguous x).isSome := by
            simp [List.countP_cons, hf]
          omega
      | some r =>
        have hmark : (st.trie.markAsAggregated n).isSome := by
          rw [mark_isSome_strip st.trie T n hstrip,
            Trie.markAsAggregated, markBits_isSome]
          exact hpaths n (by simp)
        obtain ⟨tu, hm⟩ := Option.isSome_iff_exists.mp hmark
        have htu : stripFlags tu = stripFlags T := by
          rw [markBits_strip n.bits st.trie n tu hm, hstrip]
        obtain ⟨stu, h1, h2, h3⟩ :=
          ih ⟨st.count + 1, insert r (insert n st.agg), tu⟩ T htu hpaths'
        refine ⟨stu, ?_, h2, ?_⟩
        · rw [engRun, List.foldlM_cons]
          simp only [engStep, if_neg hmem, hfind, hf, hm, Option.map_some',
            Option.some_bind]
          exact h1
        · have : (n :: l).countP (fun x => (T.findSupernetOrContiguous x).isSome) =
              (l.countP fun x => (T.findSupernetOrContiguous x).isSome) + 1 := by
            simp [List.countP_cons, hf]
          simp only at h3
          omega

/-- C7: idempotence of the aggregation engine — running the loop twice over
the same deduplicated, sorted input, the second run starting from the trie
left by the first (aggregation flags set), yields the same event count and
the same aggregated set. -/
theorem engine_idempotent (g : List Network)
    (hnodup : g.Nodup) (hsort : g.Pairwise fun a b => networkLe a b = true) :
    ∃ st1 st2,
      engRun g ⟨0, ∅, buildTrie g⟩ = some st1 ∧
      engRun g ⟨0, ∅, st1.trie⟩ = some st2 ∧
      st2.count = st1.count ∧ st2.agg = st1.agg := by
  have hpaths : ∀ n ∈ g, (walkPath n.bits (buildTrie g)).isSome :=
    fun n hn => buildTrie_path g n hn
  obtain ⟨st1, h1, hstrip1, -⟩ :=
    engRun_some g ⟨0, ∅, buildTrie g⟩ (buildTrie g) rfl hpaths
  have hcongr := engRun_congr g 0 ∅ st1.trie (buildTrie g) hstrip1
  rw [h1] at hcongr
  cases h2 : engRun g ⟨0, ∅, st1.trie⟩ with
  | none => rw [h2] at hcongr; simp at hcongr
  | some st2 =>
    rw [h2] at hcongr
    simp only [Option.map_some', Option.some_inj, Prod.mk.injEq] at hcongr
    exact ⟨st1, st2, h1, h2, hcongr.1, hcongr.2.1⟩

/-- Witness for `engine_idempotent`: the sorted, deduplicated input
`[::/32, ::/33]`. -/
theorem engine_idempotent_witness :
    ([(⟨0, 32⟩ : Network), ⟨0, 33⟩].Nodup ∧
      [(⟨0, 32⟩ : Network), ⟨0, 33⟩].Pairwise fun a b => networkLe a b = true) ∧
    ∃ st1 st2,
      engRun [⟨0, 32⟩, ⟨0, 33⟩] ⟨0, ∅, buildTrie [⟨0, 32⟩, ⟨0, 33⟩]⟩ = some st1 ∧
      engRun [⟨0, 32⟩, ⟨0, 33⟩] ⟨0, ∅, st1.trie⟩ = some st2 ∧
      st2.count = st1.count ∧ st2.agg = st1.agg :=
  ⟨⟨by decide, by decide⟩,
    engine_idempotent [⟨0, 32⟩, ⟨0, 33⟩] (by decide) (by decide)⟩

-- Deduplication and sorting properties (C6 / C8 machinery).

theorem mem_dedupFirst {α : Type} [DecidableEq α] (l : List α) (x : α) :
    x ∈ dedupFirst l ↔ x ∈ l := by
  induction l with
  | nil => simp [dedupFirst]
  | cons a l ih =>
    by_cases hx : x = a
    · subst hx
      simp [dedupFirst]
    · simp only [dedupFirst, List.mem_cons, List.mem_filter, ih, bne_iff_ne,
        ne_eq]
      constructor
      · rintro (h | ⟨h, -⟩)
        · exact Or.inl h
        · exact Or.inr h
      · rintro (h | h)
        · exact Or.inl h
        · exact Or.inr ⟨h, hx⟩

theorem nodup_dedupFirst {α : Type} [DecidableEq α] (l : List α) :
    (dedupFirst l).Nodup := by
  induction l with
  | nil => simp [dedupFirst]
  | cons a l ih =>
    show (a :: (dedupFirst l).filter fun b => b != a).Nodup
    refine List.nodup_cons.mpr ⟨?_, ih.filter _⟩
    intro hmem
    have := (List.mem_filter.mp hmem).2
    simp at this

theorem networkLe_trans : ∀ a b c : Network,
    networkLe a b → networkLe b c → networkLe a c := by
  intro a b c hab hbc
  simp only [networkLe, decide_eq_true_eq] at hab hbc ⊢
  omega

theorem networkLe_total : ∀ a b : Network, networkLe a b || networkLe b a := by
  intro a b
  simp only [networkLe, Bool.or_eq_true, decide_eq_true_eq]
  omega

instance : IsTotal Network NetLe :=
  ⟨by
    intro a b
    simp only [NetLe, networkLe, decide_eq_true_eq]
    omega⟩

instance : IsTrans Network NetLe :=
  ⟨by
    intro a b c hab hbc
    simp only [NetLe, networkLe, decide_eq_true_eq] at hab hbc ⊢
    omega⟩

theorem processedGroup_sorted (g : List Network) :
    (processedGroup g).Pairwise fun a b => networkLe a b = true :=
  (List.sorted_insertionSort NetLe (dedupFirst g)).imp fun h => h

theorem processedGroup_perm (g : List Network) :
    (processedGroup g).Perm (dedupFirst g) :=
  List.perm_insertionSort NetLe (dedupFirst g)

theorem processedGroup_nodup (g : List Network) : (processedGroup g).Nodup :=
  (processedGroup_perm g).nodup_iff.mpr (nodup_dedupFirst g)

theorem mem_processedGroup (g : List Network) (x : Network) :
    x ∈ processedGroup g ↔ x ∈ g := by
  rw [(processedGroup_perm g).mem_iff, mem_dedupFirst]

theorem groupNets_subset (l : List (Network × String)) (k : String) (x : Network)
    (hx : x ∈ groupNets l k) : x ∈ l.map Prod.fst := by
  simp only [groupNets, List.mem_map, List.mem_filter] at hx
  obtain ⟨pr, ⟨hpr, -⟩, rfl⟩ := hx
  exact List.mem_map_of_mem _ hpr

theorem mem_groupNets_self (l : List (Network × String)) (pr : Network × String)
    (hpr : pr ∈ l) : pr.1 ∈ groupNets l pr.2 := by
  simp only [groupNets, List.mem_map]
  exact ⟨pr, List.mem_filter.mpr ⟨hpr, by simp⟩, rfl⟩

-- A successful lookup always returns a strictly shorter prefix
-- (on sound tries: the supernet candidate is strict by construction and the
-- contiguity branch is dead).

theorem updCand_len (dnet : Option Network) (qlen : Nat) (c : Option Network)
    (hc : ∀ x, c = some x → x.prefixLen < qlen) :
    ∀ x, updCand dnet qlen c = some x → x.prefixLen < qlen := by
  intro x h
  cases dnet with
  | none => exact hc x h
  | some m =>
    simp only [updCand] at h
    by_cases hm : m.prefixLen < qlen
    · rw [if_pos hm] at h
      obtain rfl := Option.some_inj.mp h
      exact hm
    · rw [if_neg hm] at h
      exact hc x h

theorem walkFind_snd_len (bs : List Bool) :
    ∀ (t : Trie) (qlen : Nat) (c : Option Network),
      (∀ x, c = some x → x.prefixLen < qlen) →
      ∀ r, (walkFind bs t qlen c).2 = some r → r.prefixLen < qlen := by
  induction bs with
  | nil =>
    intro t qlen c hc r h
    cases t <;> simp only [walkFind] at h <;> exact hc r h
  | cons b bs ih =>
    intro t qlen c hc r h
    cases t with
    | nil =>
      simp only [walkFind] at h
      exact hc r h
    | node c0 c1 net agg =>
      cases b with
      | false =>
        cases hc0 : c0 with
        | nil =>
          rw [show walkFind (false :: bs) (.node c0 c1 net agg) qlen c =
              (net, c) from by rw [hc0]; simp [walkFind]] at h
          exact hc r h
        | node d0 d1 dn da =>
          rw [show walkFind (false :: bs) (.node c0 c1 net agg) qlen c =
              walkFind bs (.node d0 d1 dn da) qlen (updCand dn qlen c) from by
            rw [hc0]; simp [walkFind]] at h
          exact ih (.node d0 d1 dn da) qlen (updCand dn qlen c)
            (updCand_len dn qlen c hc) r h
      | true =>
        cases hc1 : c1 with
        | nil =>
          rw [show walkFind (true :: bs) (.node c0 c1 net agg) qlen c =
              (net, c) from by rw [hc1]; simp [walkFind]] at h
          exact hc r h
        | node d0 d1 dn da =>
          rw [show walkFind (true :: bs) (.node c0 c1 net agg) qlen c =
              walkFind bs (.node d0 d1 dn da) qlen (updCand dn qlen c) from by
            rw [hc1]; simp [walkFind]] at h
          exact ih (.node d0 d1 dn da) qlen (updCand dn qlen c)
            (updCand_len dn qlen c hc) r h

theorem findSupernetOrContiguous_len (T : Trie) (q : Network)
    (hg : goodNode T 0 0 = true) (hq : q.address < 2 ^ 128)
    (r : Network) (h : T.findSupernetOrContiguous q = some r) :
    r.prefixLen < q.prefixLen := by
  rw [findSupernetOrContiguous_eq_CM T q hg hq] at h
  unfold Trie.findSupernetOrContiguousCM at h
  exact walkFind_snd_len (addrBits q.address 128) T q.prefixLen none
    (by intro x hx; cases hx) r h

-- On a sorted, duplicate-free group, the skip set never suppresses an event:
-- every processed network either has no match (no event) or is counted.

theorem engRun_sorted_count (l : List Network) :
    ∀ (st : EngState) (T : Trie),
      stripFlags st.trie = stripFlags T →
      goodNode T 0 0 = true →
      (∀ n ∈ l, (walkPath n.bits T).isSome ∧ n.address < 2 ^ 128) →
      l.Pairwise (fun a b => networkLe a b = true) →
      l.Nodup →
      (∀ x ∈ st.agg, ∀ n ∈ l, x ≠ n) →
      ∃ stu, engRun l st = some stu ∧ stripFlags stu.trie = stripFlags T ∧
        stu.count = st.count +
          l.countP fun n => (T.findSupernetOrContiguous n).isSome := by
  induction l with
  | nil =>
    intro st T h _ _ _ _ _
    exact ⟨st, rfl, h, by simp⟩
  | cons n l ih =>
    intro st T hstrip hg hwp hsort hnodup hagg
    have hn := hwp n (by simp)
    have hwp' : ∀ x ∈ l, (walkPath x.bits T).isSome ∧ x.address < 2 ^ 128 :=
      fun x hx => hwp x (by simp [hx])
    have hsorthd := (List.pairwise_cons.mp hsort).1
    have hsort' := (List.pairwise_cons.mp hsort).2
    have hnmem := (List.nodup_cons.mp hnodup).1
    have hnodup' := (List.nodup_cons.mp hnodup).2
    have hmem : n ∉ st.agg := fun hm => hagg n hm n (by simp) rfl
    have hfind : st.trie.findSupernetOrContiguous n =
        T.findSupernetOrContiguous n :=
      findSupernetOrContiguous_strip st.trie T n hstrip
    cases hf : T.findSupernetOrContiguous n with
    | none =>
      obtain ⟨stu, h1, h2, h3⟩ := ih st T hstrip hg hwp' hsort' hnodup'
        (fun x hx nn hnn => hagg x hx nn (by simp [hnn]))
      refine ⟨stu, ?_, h2, ?_⟩
      · rw [engRun, List.foldlM_cons]
        simp only [engStep, if_neg hmem, hfind, hf, Option.some_bind]
        exact h1
      · simp [List.countP_cons, hf, h3]
    | some r =>
      have hrlen : r.prefixLen < n.prefixLen :=
        findSupernetOrContiguous_len T n hg hn.2 r hf
      have hmark : (st.trie.markAsAggregated n).isSome := by
        rw [mark_isSome_strip st.trie T n hstrip, Trie.markAsAggregated,
          markBits_isSome]
        exact hn.1
      obtain ⟨tu, hm⟩ := Option.isSome_iff_exists.mp hmark
      have htu : stripFlags tu = stripFlags T := by
        rw [markBits_strip n.bits st.trie n tu hm, hstrip]
      have hagg' : ∀ x ∈ (insert r (insert n st.agg) : Finset Network),
          ∀ nn ∈ l, x ≠ nn := by
        intro x hx nn hnn
        rcases Finset.mem_insert.mp hx with hx | hx
        · subst hx
          intro hEq
          subst hEq
          have hle := hsorthd x hnn
          simp only [networkLe, decide_eq_true_eq] at hle
          omega
        · rcases Finset.mem_insert.mp hx with hx | hx
          · subst hx
            intro hEq
            subst hEq
            exact hnmem hnn
          · exact hagg x hx nn (by simp [hnn])
      obtain ⟨stu, h1, h2, h3⟩ :=
        ih ⟨st.count + 1, insert r (insert n st.agg), tu⟩ T htu hg hwp'
          hsort' hnodup' hagg'
      refine ⟨stu, ?_, h2, ?_⟩
      · rw [engRun, List.foldlM_cons]
        simp only [engStep, if_neg hmem, hfind, hf, hm, Option.map_some',
          Option.some_bind]
        exact h1
      · simp only at h3
        simp only [List.countP_cons, hf, Option.isSome_some, if_pos]
        omega

theorem foldlM_groups (keys : List String) :
    ∀ (cnt : Nat) (t T : Trie) (l : List (Network × String)),
      stripFlags t = stripFlags T →
      goodNode T 0 0 = true →
      (∀ p ∈ l, (walkPath (Prod.fst p).bits T).isSome ∧
        (Prod.fst p).address < 2 ^ 128) →
      ∃ cnt' t',
        keys.foldlM (fun st k => runGroup st (processedGroup (groupNets l k)))
          (cnt, t) = some (cnt', t') ∧
        stripFlags t' = stripFlags T ∧
        cnt' = cnt + (keys.map fun k =>
          (processedGroup (groupNets l k)).countP fun n =>
            (T.findSupernetOrContiguous n).isSome).sum := by
  induction keys with
  | nil =>
    intro cnt t T l h _ _
    exact ⟨cnt, t, rfl, h, by simp⟩
  | cons k keys ih =>
    intro cnt t T l h hg hl
    have props : ∀ n ∈ processedGroup (groupNets l k),
        (walkPath n.bits T).isSome ∧ n.address < 2 ^ 128 := by
      intro n hnmem
      have : n ∈ groupNets l k := (mem_processedGroup _ _).mp hnmem
      have := groupNets_subset l k n this
      obtain ⟨pr, hpr, rfl⟩ := List.mem_map.mp this
      exact hl pr hpr
    obtain ⟨stu, h1, h2, h3⟩ := engRun_sorted_count
      (processedGroup (groupNets l k)) ⟨cnt, ∅, t⟩ T h hg props
      (processedGroup_sorted _) (processedGroup_nodup _) (by simp)
    obtain ⟨cnt', t', h4, h5, h6⟩ := ih stu.count stu.trie T l h2 hg hl
    refine ⟨cnt', t', ?_, h5, ?_⟩
    · rw [List.foldlM_cons]
      simp only [runGroup, h1, Option.map_some', Option.some_bind]
      exact h4
    · simp only [List.map_cons, List.sum_cons]
      simp only at h3
      omega

-- Counting: the distinct networks with a match are each counted exactly once
-- in the group that announces them, so group counts dominate the global count.

theorem countP_nodup_card (m : List Network) (hm : m.Nodup) (p : Network → Bool) :
    m.countP p = ((m.toFinset).filter fun x => p x = true).card := by
  rw [List.countP_eq_length_filter, ← List.toFinset_card_of_nodup (hm.filter p),
    List.toFinset_filter]

theorem toFinset_dedupFirst {α : Type} [DecidableEq α] (l : List α) :
    (dedupFirst l).toFinset = l.toFinset := by
  ext x
  simp [List.mem_toFinset, mem_dedupFirst]

theorem countP_dedup_le_groups (l : List (Network × String)) (p : Network → Bool) :
    (dedupFirst (l.map Prod.fst)).countP p ≤
      ((dedupFirst (l.map Prod.snd)).map fun k =>
        (processedGroup (groupNets l k)).countP p).sum := by
  have hRHS : ((dedupFirst (l.map Prod.snd)).map fun k =>
      (processedGroup (groupNets l k)).countP p).sum =
      ∑ k in (l.map Prod.snd).toFinset,
        ((groupNets l k).toFinset.filter fun x => p x = true).card := by
    have hpt : ∀ k, (processedGroup (groupNets l k)).countP p =
        ((groupNets l k).toFinset.filter fun x => p x = true).card := by
      intro k
      rw [(processedGroup_perm (groupNets l k)).countP_eq,
        countP_nodup_card _ (nodup_dedupFirst _), toFinset_dedupFirst]
    rw [← toFinset_dedupFirst (l.map Prod.snd),
      List.sum_toFinset _ (nodup_dedupFirst _)]
    exact congrArg List.sum (List.map_congr_left fun k _ => hpt k)
  have hLHS : (dedupFirst (l.map Prod.fst)).countP p =
      ((l.map Prod.fst).toFinset.filter fun x => p x = true).card := by
    rw [countP_nodup_card _ (nodup_dedupFirst _), toFinset_dedupFirst]
  rw [hLHS, hRHS]
  have hsubset : ((l.map Prod.fst).toFinset.filter fun x => p x = true) ⊆
      (l.map Prod.snd).toFinset.biUnion fun k =>
        (groupNets l k).toFinset.filter fun x => p x = true := by
    intro x hx
    obtain ⟨hx1, hx2⟩ := Finset.mem_filter.mp hx
    obtain ⟨pr, hpr, rfl⟩ := List.mem_map.mp (List.mem_toFinset.mp hx1)
    refine Finset.mem_biUnion.mpr ⟨pr.2, ?_, ?_⟩
    · exact List.mem_toFinset.mpr (List.mem_map_of_mem _ hpr)
    · exact Finset.mem_filter.mpr
        ⟨List.mem_toFinset.mpr (mem_groupNets_self l pr hpr), hx2⟩
  calc ((l.map Prod.fst).toFinset.filter fun x => p x = true).card
      ≤ ((l.map Prod.snd).toFinset.biUnion fun k =>
          (groupNets l k).toFinset.filter fun x => p x = true).card :=
        Finset.card_le_card hsubset
    _ ≤ ∑ k in (l.map Prod.snd).toFinset,
          ((groupNets l k).toFinset.filter fun x => p x = true).card :=
        Finset.card_biUnion_le

/-- C6 (amended, inequality direction reversed): for every input collection
of (network, origin-AS) records with well-formed networks, the per-group
engine produces an aggregation event count greater than or equal to the
ungrouped (global) engine's count on the same input — per-group sorted
processing counts every distinct network that has a match, while the global
shared skip set can only suppress events. -/
theorem grouped_count_ge_global (l : List (Network × String))
    (hwf : ∀ p ∈ l, (Prod.fst p).wf) :
    ∃ cg cp, countGlobal (l.map Prod.fst) = some cg ∧
      countGrouped l = some cp ∧ cg ≤ cp := by
  have hwfL : ∀ m ∈ dedupFirst (l.map Prod.fst), m.wf := by
    intro m hm
    obtain ⟨pr, hpr, rfl⟩ := List.mem_map.mp ((mem_dedupFirst _ _).mp hm)
    exact hwf pr hpr
  have hg : goodNode (buildTrie (dedupFirst (l.map Prod.fst))) 0 0 = true :=
    goodNode_buildTrie _ hwfL
  have hpathL : ∀ n ∈ dedupFirst (l.map Prod.fst),
      (walkPath n.bits (buildTrie (dedupFirst (l.map Prod.fst)))).isSome :=
    fun n hn => buildTrie_path _ n hn
  obtain ⟨st, h1, -, h3⟩ := engRun_some (dedupFirst (l.map Prod.fst))
    ⟨0, ∅, buildTrie (dedupFirst (l.map Prod.fst))⟩
    (buildTrie (dedupFirst (l.map Prod.fst))) rfl hpathL
  have hl : ∀ p ∈ l,
      (walkPath (Prod.fst p).bits (buildTrie (dedupFirst (l.map Prod.fst)))).isSome ∧
      (Prod.fst p).address < 2 ^ 128 := by
    intro pr hpr
    have hmem : pr.1 ∈ dedupFirst (l.map Prod.fst) :=
      (mem_dedupFirst _ _).mpr (List.mem_map_of_mem _ hpr)
    exact ⟨hpathL pr.1 hmem, (hwf pr hpr).2.1⟩
  obtain ⟨cnt', t', h4, -, h6⟩ := foldlM_groups (dedupFirst (l.map Prod.snd))
    0 (buildTrie (dedupFirst (l.map Prod.fst)))
    (buildTrie (dedupFirst (l.map Prod.fst))) l rfl hg hl
  refine ⟨st.count, cnt', ?_, ?_, ?_⟩
  · rw [countGlobal, analyzeGlobal, h1]
    rfl
  · rw [countGrouped, analyzeGrouped, h4]
    rfl
  · have hle := countP_dedup_le_groups l
      fun n => ((buildTrie (dedupFirst (l.map Prod.fst))).findSupernetOrContiguous n).isSome
    simp only at h3
    omega

/-- Witness for `grouped_count_ge_global` at the concrete input `cexInput`. -/
theorem grouped_count_ge_global_witness :
    (∀ p ∈ cexInput, (Prod.fst p).wf) ∧
    ∃ cg cp, countGlobal (cexInput.map Prod.fst) = some cg ∧
      countGrouped cexInput = some cp ∧ cg ≤ cp :=
  ⟨by decide, grouped_count_ge_global cexInput (by decide)⟩

/-- C6 as stated is false: on `cexInput` (`::/34` announced by AS "1",
`::/32` and `::/30` by AS "2", global processing order `::/34, ::/32, ::/30`)
the global engine counts one aggregation event (`::/34` matches `::/32`, which
is then skipped) while the per-group engine counts two (`::/34` matches
`::/32` in group "1"; `::/32` matches `::/30` in group "2"), so the per-group
count exceeds, not bounds, the ungrouped count. -/
theorem grouped_count_exceeds_global :
    countGlobal (cexInput.map Prod.fst) = some 1 ∧
    countGrouped cexInput = some 2 ∧ ¬ (2 : Nat) ≤ 1 := by
  refine ⟨?_, ?_, by omega⟩ <;> decide

/-- C8 (amended): only the per-origin-AS engines sort. In v3/v5/calcilo each
group is processed in (prefix_length ascending, address ascending) order —
the processed list is the sorted permutation of the deduplicated group, fully
determined by the sort key — whereas the global engine of v1 processes the
deduplicated networks in first-occurrence input order, without sorting. -/
theorem group_processing_sorted (g : List Network) (l : List Network) :
    (processedGroup g).Pairwise (fun a b => networkLe a b = true) ∧
    (processedGroup g).Perm (dedupFirst g) ∧
    processedGlobal l = dedupFirst l :=
  ⟨processedGroup_sorted g, processedGroup_perm g, rfl⟩

/-- C8 as stated is false for the global engine: on the input
`[::/33, ::/32]` v1 processes `::/33` first — first-occurrence order, not
(prefix_length, address) order. -/
theorem global_processing_not_sorted :
    processedGlobal [⟨0, 33⟩, ⟨0, 32⟩] = [⟨0, 33⟩, ⟨0, 32⟩] ∧
    ¬ List.Pairwise (fun a b => networkLe a b = true)
        (processedGlobal [⟨0, 33⟩, ⟨0, 32⟩]) := by
  refine ⟨by decide, ?_⟩
  intro h
  have := List.pairwise_cons.mp h
  have h1 := this.1 ⟨0, 32⟩ (by decide)
  simp [networkLe] at h1

/-- C9: the post-group filter of v5/calcilo keeps a network of the group's
aggregated set in the reported set iff no other network of the same set has a
strictly longer prefix length at the same address (the network itself never
disqualifies, since its prefix length is not strictly longer than its own). -/
theorem filterAggregated_mem (s : Finset Network) (n : Network) :
    n ∈ filterAggregated s ↔
      n ∈ s ∧ ∀ m ∈ s, m ≠ n →
        ¬ (n.prefixLen < m.prefixLen ∧ m.address = n.address) := by
  rw [filterAggregated, Finset.mem_filter]
  constructor
  · rintro ⟨hn, hno⟩
    refine ⟨hn, ?_⟩
    intro m hm _ hcon
    exact hno ⟨m, hm, hcon⟩
  · rintro ⟨hn, hall⟩
    refine ⟨hn, ?_⟩
    rintro ⟨m, hm, hcon⟩
    by_cases hmn : m = n
    · subst hmn
      exact absurd hcon.1 (lt_irrefl _)
    · exact hall m hm hmn hcon
